import Mathlib

/-!
# Verification of the `CoinFlipper` bit-efficient biased coin sampler

Shallow embedding of `src/seq/coin_flipper.rs`.  The random source
(`RngCore::next_u32`) is modelled as an infinite stream of words
`stream : Nat → Nat` together with a cursor `pos`; each draw reads
`stream pos % 2^32` and advances the cursor.  Machine integers are
modelled as `Nat` with explicit `% 2^w` where wraparound matters.
-/

set_option maxHeartbeats 1000000

/-- `u32::trailing_zeros` on the low `f` bits: counts trailing zero bits,
returning `f` when all `f` low bits are zero. -/
def tzAux : Nat → Nat → Nat
  | 0, _ => 0
  | f + 1, x => if x % 2 = 1 then 0 else tzAux f (x / 2) + 1

/-- `u32::trailing_zeros`: trailing zeros of the low 32 bits (32 for zero). -/
def tz32 (x : Nat) : Nat := tzAux 32 x

/-- Bit length on the low `f` bits (`f` fuel steps). -/
def bitLenAux : Nat → Nat → Nat
  | 0, _ => 0
  | f + 1, x => if x = 0 then 0 else bitLenAux f (x / 2) + 1

/-- Bit length of a 64-bit value: position of the highest set bit plus one. -/
def bitLen (x : Nat) : Nat := bitLenAux 64 x

/-- `u64::leading_zeros` (for `usize` = 64 bits): `64 - bit length`. -/
def leading_zeros (x : Nat) : Nat := 64 - bitLen x

/-- `usize::BITS` on a 64-bit target. -/
def usizeBits : Nat := 64

/-- `usize::MAX` on a 64-bit target. -/
def usizeMax : Nat := 2 ^ 64 - 1

/-- `usize::wrapping_sub` (operands reduced mod `2^64`). -/
def wrapping_sub (a b : Nat) : Nat := (a % 2 ^ 64 + 2 ^ 64 - b % 2 ^ 64) % 2 ^ 64

/-- `usize::wrapping_add`. -/
def wrapping_add (a b : Nat) : Nat := (a + b) % 2 ^ 64

/-- The `CoinFlipper` state: the random source (an infinite stream of words
and a cursor) together with the bit buffer `chunk` / `chunk_remaining`. -/
structure CoinFlipper where
  stream : Nat → Nat
  pos : Nat
  chunk : Nat
  chunk_remaining : Nat

/-- `CoinFlipper::new`: wraps a source with an empty bit buffer. -/
def CoinFlipper.new (stream : Nat → Nat) : CoinFlipper :=
  { stream := stream, pos := 0, chunk := 0, chunk_remaining := 0 }

/-- `CoinFlipper::next`: consume one bit of randomness.  If
`chunk_remaining.checked_sub(1)` succeeds, decrement it; otherwise refill
`chunk` from the source and set `chunk_remaining = u32::BITS - 1`.  The
result is `chunk.trailing_zeros() > 0` (i.e. the low bit is zero), and
`chunk` is shifted right by one (`wrapping_shr(1)`). -/
def next (s : CoinFlipper) : Bool × CoinFlipper :=
  let s1 : CoinFlipper :=
    if 1 ≤ s.chunk_remaining then
      { s with chunk_remaining := s.chunk_remaining - 1 }
    else
      { s with chunk := s.stream s.pos % 2 ^ 32, pos := s.pos + 1,
               chunk_remaining := 32 - 1 }
  (decide (0 < tz32 s1.chunk), { s1 with chunk := s1.chunk >>> 1 })

/-- `CoinFlipper::all_next`: if the next `n` bits are all zeros, consume them
and return true; otherwise consume the zeros plus one and return false.
The loop `while chunk_remaining < n` either consumes all remaining buffered
bits as zeros (`n -= chunk_remaining`, then refill with `chunk_remaining = 32`)
or hits a one bit and returns false early.  That early-return branch performs
the plain (non-wrapping) shift `self.chunk >>= zeros + 1`; when
`zeros + 1 = 32` — a just-refilled word whose zero run ends at bit 31, while
more than 32 bits are still requested — this is an overflowing `u32` shift,
an arithmetic error under the checked semantics used throughout this file
(cf. the underflow in `gen_ratio_one_over` for denominator 0), modelled as
`none`.  After the loop the `result` / `bits_to_consume` computation of the
source is presented as the two branches of `if n ≤ zeros`; there the shift is
`wrapping_shr(bits_to_consume)` (masked, total) and the final subtraction is
`saturating_sub` (`Nat` subtraction is saturating). -/
def all_next (s : CoinFlipper) (n : Nat) : Option (Bool × CoinFlipper) :=
  if _h : s.chunk_remaining < n then
    let zeros := tz32 s.chunk
    if s.chunk_remaining ≤ zeros then
      all_next { s with chunk := s.stream s.pos % 2 ^ 32, pos := s.pos + 1,
                        chunk_remaining := 32 } (n - s.chunk_remaining)
    else
      if zeros + 1 < 32 then
        some (false, ⟨s.stream, s.pos, s.chunk >>> (zeros + 1),
          s.chunk_remaining - (zeros + 1)⟩)
      else
        none
  else
    let zeros := tz32 s.chunk
    if n ≤ zeros then
      some (true, ⟨s.stream, s.pos, s.chunk >>> (n % 32),
        s.chunk_remaining - n⟩)
    else
      some (false, ⟨s.stream, s.pos, s.chunk >>> ((zeros + 1) % 32),
        s.chunk_remaining - (zeros + 1)⟩)
termination_by n + (33 - min s.chunk_remaining 33)
decreasing_by simp; omega

/-- `CoinFlipper::gen_ratio`: true with probability `numerator/denominator`.
The Rust loop `while numerator < denominator` need not terminate on an
adversarial bit stream, so the embedding takes explicit `fuel` and returns
`none` when the fuel runs out mid-loop.  `checked_mul(2)` succeeds exactly
when `numerator * 2 ≤ usizeMax`; the overflow branch draws a bit, returns
true on heads, and on tails sets the numerator to
`numerator.wrapping_sub(denominator).wrapping_add(numerator)`. -/
def gen_ratio : Nat → Nat → Nat → CoinFlipper → Option (Bool × CoinFlipper)
  | fuel, numerator, denominator, s =>
    if numerator < denominator then
      match fuel with
      | 0 => none
      | fuel + 1 =>
        if numerator * 2 ≤ usizeMax then
          let p := next s
          if p.1 then
            gen_ratio fuel (numerator * 2) denominator p.2
          else if numerator * 2 < denominator then
            some (false, p.2)
          else
            gen_ratio fuel (numerator * 2 - denominator) denominator p.2
        else
          let p := next s
          if p.1 then
            some (true, p.2)
          else
            gen_ratio fuel
              (wrapping_add (wrapping_sub numerator denominator) numerator)
              denominator p.2
    else
      some (true, s)

/-- `CoinFlipper::gen_ratio_one_over`: true with probability `1/denominator`.
Computes `n = usize::BITS - denominator.leading_zeros() - 1` in `u32`
arithmetic: for `denominator = 0` that subtraction underflows, which Rust
flags as an arithmetic overflow error (a panic), modelled here as `none`.
Otherwise it short-circuits to false when `all_next n` returns false, and
falls through to `gen_ratio (1 << n) denominator` when it returns true; a
panic inside `all_next` (its overflowing shift) propagates. -/
def gen_ratio_one_over (fuel : Nat) (s : CoinFlipper) (denominator : Nat) :
    Option (Bool × CoinFlipper) :=
  if 1 ≤ usizeBits - leading_zeros denominator then
    let n := usizeBits - leading_zeros denominator - 1
    match all_next s n with
    | none => none
    | some (ok, s1) =>
      if ok then
        gen_ratio fuel (1 <<< n) denominator s1
      else
        some (false, s1)
  else
    none

/-! ## Facts about `tzAux` / `tz32` and bits -/

theorem tzAux_le (f x : Nat) : tzAux f x ≤ f := by
  induction f generalizing x with
  | zero => simp [tzAux]
  | succ f ih =>
    simp only [tzAux]
    split
    · omega
    · have := ih (x / 2); omega

theorem testBit_eq_false_of_lt_tzAux {f x i : Nat} (h : i < tzAux f x) :
    x.testBit i = false := by
  induction f generalizing x i with
  | zero => simp [tzAux] at h
  | succ f ih =>
    simp only [tzAux] at h
    split at h
    · omega
    · rename_i hx
      cases i with
      | zero =>
        simp [Nat.testBit_zero]
        omega
      | succ i =>
        rw [Nat.testBit_succ]
        exact ih (by omega)

theorem le_tzAux_of_testBit {f x k : Nat} (hk : k ≤ f)
    (h : ∀ i < k, x.testBit i = false) : k ≤ tzAux f x := by
  induction f generalizing x k with
  | zero => omega
  | succ f ih =>
    cases k with
    | zero => omega
    | succ k =>
      have h0 : x.testBit 0 = false := h 0 (by omega)
      have hx : ¬ x % 2 = 1 := by
        simp [Nat.testBit_zero] at h0; omega
      simp only [tzAux, if_neg hx]
      have : k ≤ tzAux f (x / 2) := by
        refine ih (by omega) ?_
        intro i hi
        rw [← Nat.testBit_succ]
        exact h (i + 1) (by omega)
      omega

theorem testBit_tzAux_eq_true {f x : Nat} (h : tzAux f x < f) :
    x.testBit (tzAux f x) = true := by
  induction f generalizing x with
  | zero => simp [tzAux] at h
  | succ f ih =>
    by_cases hx : x % 2 = 1
    · simp only [tzAux, if_pos hx]
      simp [Nat.testBit_zero]
      omega
    · simp only [tzAux, if_neg hx] at h ⊢
      rw [Nat.testBit_succ]
      exact ih (by omega)

theorem tz32_le (x : Nat) : tz32 x ≤ 32 := tzAux_le 32 x

theorem testBit_eq_false_of_lt_tz32 {x i : Nat} (h : i < tz32 x) :
    x.testBit i = false := testBit_eq_false_of_lt_tzAux h

theorem le_tz32_of_testBit {x k : Nat} (hk : k ≤ 32)
    (h : ∀ i < k, x.testBit i = false) : k ≤ tz32 x :=
  le_tzAux_of_testBit hk h

theorem testBit_tz32_eq_true {x : Nat} (h : tz32 x < 32) :
    x.testBit (tz32 x) = true := testBit_tzAux_eq_true h

/-- `tzAux f` only looks at the low `f` bits. -/
theorem tzAux_congr {f x y : Nat} (h : ∀ i < f, x.testBit i = y.testBit i) :
    tzAux f x = tzAux f y := by
  induction f generalizing x y with
  | zero => simp [tzAux]
  | succ f ih =>
    have h0 : x % 2 = y % 2 := by
      have := h 0 (by omega)
      simp only [Nat.testBit_zero, decide_eq_decide] at this
      omega
    simp only [tzAux, h0]
    split
    · rfl
    · have : tzAux f (x / 2) = tzAux f (y / 2) := by
        refine ih ?_
        intro i hi
        rw [← Nat.testBit_succ, ← Nat.testBit_succ]
        exact h (i + 1) (by omega)
      omega

/-- `tz32` is determined by agreement on the low `c` bits, in the two ways the
algorithm uses it: the comparison with any `k ≤ c`, and the exact value when
it is below `c`. -/
theorem tz32_agree {c x y : Nat} (h : ∀ i < c, x.testBit i = y.testBit i) :
    (∀ k ≤ c, (k ≤ tz32 x ↔ k ≤ tz32 y)) ∧ (tz32 x < c → tz32 x = tz32 y) := by
  rcases le_or_lt 32 c with hc | hc
  · have : tz32 x = tz32 y := tzAux_congr fun i hi => h i (by omega)
    constructor
    · intro k _; omega
    · intro _; exact this
  · constructor
    · intro k hk
      constructor
      · intro hx
        refine le_tz32_of_testBit (by omega) ?_
        intro i hi
        rw [← h i (by omega)]
        exact testBit_eq_false_of_lt_tz32 (by omega)
      · intro hy
        refine le_tz32_of_testBit (by omega) ?_
        intro i hi
        rw [h i (by omega)]
        exact testBit_eq_false_of_lt_tz32 (by omega)
    · intro hlt
      have h1 : tz32 x ≤ tz32 y := by
        refine le_tz32_of_testBit (by have := tz32_le x; omega) ?_
        intro i hi
        rw [← h i (by omega)]
        exact testBit_eq_false_of_lt_tz32 hi
      have h2 : ¬ tz32 x < tz32 y := by
        intro hlt2
        have ht : x.testBit (tz32 x) = true := testBit_tz32_eq_true (by omega)
        have hf : y.testBit (tz32 x) = false :=
          testBit_eq_false_of_lt_tz32 hlt2
        rw [h (tz32 x) hlt] at ht
        rw [ht] at hf
        exact Bool.noConfusion hf
      omega

/-! ## Observables of a flipper state

`streamBit s i` is the `i`-th upcoming bit of the random stream in
consumption order: the low `chunk_remaining` bits of `chunk` first, then the
bits of the words the source will produce, least-significant first.
`idx s` is the absolute position of the cursor in the global bit stream;
the number of bits an operation consumed is the difference of `idx`. -/

def streamBit (s : CoinFlipper) (i : Nat) : Bool :=
  if i < s.chunk_remaining then
    s.chunk.testBit i
  else
    let j := i - s.chunk_remaining
    (s.stream (s.pos + j / 32) % 2 ^ 32).testBit (j % 32)

def idx (s : CoinFlipper) : Int := 32 * s.pos - s.chunk_remaining

/-! ## Stream-shift lemmas -/

/-- Consuming `k` buffered bits (any new chunk value agreeing with the old
chunk shifted by `k` on the still-valid bits) shifts the observable bit
stream by `k`. -/
theorem streamBit_consume (s : CoinFlipper) (k c' : Nat)
    (hk : k ≤ s.chunk_remaining)
    (hc' : ∀ i, k + i < s.chunk_remaining →
      c'.testBit i = s.chunk.testBit (k + i)) (i : Nat) :
    streamBit ⟨s.stream, s.pos, c', s.chunk_remaining - k⟩ i
      = streamBit s (k + i) := by
  simp only [streamBit]
  by_cases h1 : i < s.chunk_remaining - k
  · rw [if_pos h1, if_pos (by omega)]
    exact hc' i (by omega)
  · rw [if_neg h1, if_neg (by omega)]
    have e1 : k + i - s.chunk_remaining = i - (s.chunk_remaining - k) := by
      omega
    rw [e1]

/-- Refilling the buffer (after consuming all `chunk_remaining` buffered
bits) shifts the observable bit stream by `chunk_remaining`. -/
theorem streamBit_refill (s : CoinFlipper) (i : Nat) :
    streamBit ⟨s.stream, s.pos + 1, s.stream s.pos % 2 ^ 32, 32⟩ i
      = streamBit s (s.chunk_remaining + i) := by
  simp only [streamBit]
  rw [if_neg (show ¬ s.chunk_remaining + i < s.chunk_remaining by omega)]
  have e1 : s.chunk_remaining + i - s.chunk_remaining = i := by omega
  rw [e1]
  by_cases h1 : i < 32
  · rw [if_pos h1]
    rw [show s.pos + i / 32 = s.pos from by omega,
        show i % 32 = i from by omega]
  · rw [if_neg h1]
    rw [show s.pos + 1 + (i - 32) / 32 = s.pos + i / 32 from by omega,
        show (i - 32) % 32 = i % 32 from by omega]

/-! ## One-step unfolding lemmas for `all_next` -/

theorem all_next_loop_refill {s : CoinFlipper} {n : Nat}
    (hlt : s.chunk_remaining < n) (hz : s.chunk_remaining ≤ tz32 s.chunk) :
    all_next s n
      = all_next ⟨s.stream, s.pos + 1, s.stream s.pos % 2 ^ 32, 32⟩
          (n - s.chunk_remaining) := by
  conv_lhs => rw [all_next.eq_def]
  simp only [dif_pos hlt, if_pos hz]

theorem all_next_loop_stop {s : CoinFlipper} {n : Nat}
    (hlt : s.chunk_remaining < n) (hz : ¬ s.chunk_remaining ≤ tz32 s.chunk)
    (hp : tz32 s.chunk + 1 < 32) :
    all_next s n
      = some (false, ⟨s.stream, s.pos, s.chunk >>> (tz32 s.chunk + 1),
          s.chunk_remaining - (tz32 s.chunk + 1)⟩) := by
  conv_lhs => rw [all_next.eq_def]
  simp only [dif_pos hlt, if_neg hz, if_pos hp]

theorem all_next_loop_panic {s : CoinFlipper} {n : Nat}
    (hlt : s.chunk_remaining < n) (hz : ¬ s.chunk_remaining ≤ tz32 s.chunk)
    (hp : ¬ tz32 s.chunk + 1 < 32) :
    all_next s n = none := by
  conv_lhs => rw [all_next.eq_def]
  simp only [dif_pos hlt, if_neg hz, if_neg hp]

theorem all_next_final_true {s : CoinFlipper} {n : Nat}
    (hge : ¬ s.chunk_remaining < n) (hres : n ≤ tz32 s.chunk) :
    all_next s n
      = some (true, ⟨s.stream, s.pos, s.chunk >>> (n % 32),
          s.chunk_remaining - n⟩) := by
  conv_lhs => rw [all_next.eq_def]
  simp only [dif_neg hge, if_pos hres]

theorem all_next_final_false {s : CoinFlipper} {n : Nat}
    (hge : ¬ s.chunk_remaining < n) (hres : ¬ n ≤ tz32 s.chunk) :
    all_next s n
      = some (false, ⟨s.stream, s.pos, s.chunk >>> ((tz32 s.chunk + 1) % 32),
          s.chunk_remaining - (tz32 s.chunk + 1)⟩) := by
  conv_lhs => rw [all_next.eq_def]
  simp only [dif_neg hge, if_neg hres]

/-! ## Full functional specification of `all_next` -/

/-- Auxiliary form of the `all_next` specification, by induction on an upper
bound `m` of the termination measure: whenever `all_next` returns a value
(it returns `none` on the overflowing-shift panic path), the value satisfies
the zero-run specification. -/
theorem allNext_spec_aux :
    ∀ (m n : Nat) (s : CoinFlipper),
    s.chunk_remaining ≤ 32 → n + 33 - s.chunk_remaining ≤ m →
    ∀ (b : Bool) (s' : CoinFlipper), all_next s n = some (b, s') →
    s'.stream = s.stream ∧
    s'.chunk_remaining ≤ 32 ∧
    (b = true ↔ ∀ i < n, streamBit s i = false) ∧
    (b = true →
      idx s' = idx s + n ∧
      ∀ i, streamBit s' i = streamBit s (n + i)) ∧
    (b = false →
      ∃ z, z < n ∧ (∀ i < z, streamBit s i = false) ∧ streamBit s z = true ∧
        idx s' = idx s + z + 1 ∧
        ∀ i, streamBit s' i = streamBit s (z + 1 + i)) := by
  intro m
  induction m with
  | zero => intro n s h32 hm; omega
  | succ m ih =>
    intro n s h32 hm b s' heq
    by_cases hlt : s.chunk_remaining < n
    · by_cases hz : s.chunk_remaining ≤ tz32 s.chunk
      · -- loop iteration: remaining buffered bits are all zeros, refill
        rw [all_next_loop_refill hlt hz] at heq
        have hpre : ∀ i < s.chunk_remaining, streamBit s i = false := by
          intro i hi
          simp only [streamBit, if_pos hi]
          exact testBit_eq_false_of_lt_tz32 (lt_of_lt_of_le hi hz)
        have hidx1 :
            idx ⟨s.stream, s.pos + 1, s.stream s.pos % 2 ^ 32, 32⟩
              = idx s + s.chunk_remaining := by
          simp only [idx]; omega
        obtain ⟨g1, g2, g3, g4, g5⟩ :=
          ih (n - s.chunk_remaining)
            ⟨s.stream, s.pos + 1, s.stream s.pos % 2 ^ 32, 32⟩
            (by show (32 : Nat) ≤ 32; omega)
            (by show n - s.chunk_remaining + 33 - 32 ≤ m; omega)
            b s' heq
        refine ⟨g1, g2, ?_, ?_, ?_⟩
        · constructor
          · intro ht i hi
            by_cases hic : i < s.chunk_remaining
            · exact hpre i hic
            · have h5 := g3.mp ht (i - s.chunk_remaining) (by omega)
              rw [streamBit_refill s (i - s.chunk_remaining),
                show s.chunk_remaining + (i - s.chunk_remaining) = i
                  from by omega] at h5
              exact h5
          · intro hall
            apply g3.mpr
            intro i hi
            rw [streamBit_refill s i]
            exact hall _ (by omega)
        · intro ht
          obtain ⟨hidx4, hsh4⟩ := g4 ht
          constructor
          · rw [hidx4, hidx1]; omega
          · intro i
            rw [hsh4 i, streamBit_refill s,
              show s.chunk_remaining + (n - s.chunk_remaining + i) = n + i
                from by omega]
        · intro hf
          obtain ⟨z1, hz1, hpre1, hone1, hidx5, hsh5⟩ := g5 hf
          refine ⟨s.chunk_remaining + z1, by omega, ?_, ?_, ?_, ?_⟩
          · intro i hi
            by_cases hic : i < s.chunk_remaining
            · exact hpre i hic
            · have h5 := hpre1 (i - s.chunk_remaining) (by omega)
              rw [streamBit_refill s (i - s.chunk_remaining),
                show s.chunk_remaining + (i - s.chunk_remaining) = i
                  from by omega] at h5
              exact h5
          · rw [streamBit_refill s z1] at hone1
            exact hone1
          · rw [hidx5, hidx1]; omega
          · intro i
            rw [hsh5 i, streamBit_refill s,
              show s.chunk_remaining + (z1 + 1 + i)
                  = s.chunk_remaining + z1 + 1 + i from by omega]
      · -- loop iteration: a one bit among the buffered bits
        by_cases hp : tz32 s.chunk + 1 < 32
        · -- the plain shift is in range: early false
          rw [all_next_loop_stop hlt hz hp] at heq
          have h2 := Option.some.inj heq
          rw [Prod.mk.injEq] at h2
          obtain ⟨hb, hs'⟩ := h2
          subst hb
          subst hs'
          have hzcr : tz32 s.chunk < s.chunk_remaining := by omega
          have hone : streamBit s (tz32 s.chunk) = true := by
            simp only [streamBit, if_pos hzcr]
            exact testBit_tz32_eq_true (by omega)
          refine ⟨rfl,
            by show s.chunk_remaining - (tz32 s.chunk + 1) ≤ 32; omega,
            ?_, ?_, ?_⟩
          · constructor
            · intro ht; exact Bool.noConfusion ht
            · intro hall
              exfalso
              have h5 := hall (tz32 s.chunk) (by omega)
              rw [hone] at h5
              exact Bool.noConfusion h5
          · intro ht; exact Bool.noConfusion ht
          · intro _
            refine ⟨tz32 s.chunk, by omega, ?_, hone, ?_, ?_⟩
            · intro i hi
              simp only [streamBit,
                if_pos (show i < s.chunk_remaining by omega)]
              exact testBit_eq_false_of_lt_tz32 hi
            · show idx ⟨s.stream, s.pos, s.chunk >>> (tz32 s.chunk + 1),
                s.chunk_remaining - (tz32 s.chunk + 1)⟩ = _
              simp only [idx]; omega
            · intro i
              exact streamBit_consume s (tz32 s.chunk + 1)
                (s.chunk >>> (tz32 s.chunk + 1)) (by omega)
                (fun j _ => by rw [Nat.testBit_shiftRight]) i
        · -- overflowing shift: no value is returned
          rw [all_next_loop_panic hlt hz hp] at heq
          exact Option.noConfusion heq
    · by_cases hres : n ≤ tz32 s.chunk
      · -- final step, success: consume exactly n bits
        rw [all_next_final_true hlt hres] at heq
        have h2 := Option.some.inj heq
        rw [Prod.mk.injEq] at h2
        obtain ⟨hb, hs'⟩ := h2
        subst hb
        subst hs'
        have hncr : n ≤ s.chunk_remaining := by omega
        refine ⟨rfl, by show s.chunk_remaining - n ≤ 32; omega, ?_, ?_, ?_⟩
        · constructor
          · intro _ i hi
            simp only [streamBit, if_pos (show i < s.chunk_remaining by omega)]
            exact testBit_eq_false_of_lt_tz32 (by omega)
          · intro _; rfl
        · intro _
          constructor
          · show idx ⟨s.stream, s.pos, s.chunk >>> (n % 32),
              s.chunk_remaining - n⟩ = _
            simp only [idx]; omega
          · intro i
            refine streamBit_consume s n (s.chunk >>> (n % 32)) hncr ?_ i
            intro j hj
            by_cases hn : n < 32
            · rw [Nat.mod_eq_of_lt hn, Nat.testBit_shiftRight]
            · exact absurd hj (by omega)
        · intro hf; exact Bool.noConfusion hf
      · -- final step, failure: consume the zeros plus the one bit
        rw [all_next_final_false hlt hres] at heq
        have h2 := Option.some.inj heq
        rw [Prod.mk.injEq] at h2
        obtain ⟨hb, hs'⟩ := h2
        subst hb
        subst hs'
        have hzn : tz32 s.chunk < n := by omega
        have hzcr : tz32 s.chunk < s.chunk_remaining := by omega
        have hone : streamBit s (tz32 s.chunk) = true := by
          simp only [streamBit, if_pos hzcr]
          exact testBit_tz32_eq_true (by omega)
        refine ⟨rfl, by show s.chunk_remaining - (tz32 s.chunk + 1) ≤ 32; omega,
          ?_, ?_, ?_⟩
        · constructor
          · intro ht; exact Bool.noConfusion ht
          · intro hall
            exfalso
            have h5 := hall (tz32 s.chunk) (by omega)
            rw [hone] at h5
            exact Bool.noConfusion h5
        · intro ht; exact Bool.noConfusion ht
        · intro _
          refine ⟨tz32 s.chunk, hzn, ?_, hone, ?_, ?_⟩
          · intro i hi
            simp only [streamBit, if_pos (show i < s.chunk_remaining by omega)]
            exact testBit_eq_false_of_lt_tz32 hi
          · show idx ⟨s.stream, s.pos, s.chunk >>> ((tz32 s.chunk + 1) % 32),
              s.chunk_remaining - (tz32 s.chunk + 1)⟩ = _
            simp only [idx]; omega
          · intro i
            refine streamBit_consume s (tz32 s.chunk + 1)
              (s.chunk >>> ((tz32 s.chunk + 1) % 32)) (by omega) ?_ i
            intro j hj
            by_cases hz32 : tz32 s.chunk + 1 < 32
            · rw [Nat.mod_eq_of_lt hz32, Nat.testBit_shiftRight]
            · exact absurd hj (by omega)

/-- The `all_next` specification with the measure bound discharged. -/
theorem allNext_spec (n : Nat) (s : CoinFlipper)
    (h32 : s.chunk_remaining ≤ 32) :
    ∀ (b : Bool) (s' : CoinFlipper), all_next s n = some (b, s') →
    s'.stream = s.stream ∧
    s'.chunk_remaining ≤ 32 ∧
    (b = true ↔ ∀ i < n, streamBit s i = false) ∧
    (b = true →
      idx s' = idx s + n ∧
      ∀ i, streamBit s' i = streamBit s (n + i)) ∧
    (b = false →
      ∃ z, z < n ∧ (∀ i < z, streamBit s i = false) ∧ streamBit s z = true ∧
        idx s' = idx s + z + 1 ∧
        ∀ i, streamBit s' i = streamBit s (z + 1 + i)) :=
  allNext_spec_aux (n + 33) n s h32 (by omega)


/-! ## Claim C1 -/

/-- Counterexample to C1 as stated: a state satisfying the data-model
invariant (a fresh flipper, `chunk_remaining = 0`) at which `all_next 33`
returns no boolean at all.  The stream's first word is `2^31`, so after the
refill the zero run ends at bit 31 and the source executes the overflowing
plain shift `chunk >>= 32` — an arithmetic error (panic) under checked
semantics — instead of returning false and consuming 32 bits. -/
theorem C1_all_next_zero_run_counterexample :
    (CoinFlipper.new fun _ => 2 ^ 31).chunk_remaining ≤ 32 ∧
    all_next (CoinFlipper.new fun _ => 2 ^ 31) 33 = none := by
  constructor
  · decide
  · rw [all_next_loop_refill (by decide) (by decide)]
    rw [all_next_loop_panic (by decide) (by decide) (by decide)]

/-- **C1** (amended): for every `n` and every buffer state satisfying the
invariant `chunk_remaining ≤ 32`, whenever `all_next n` returns a boolean
(the source instead panics on the overflowing `chunk >>= zeros + 1` shift
when a refilled word's zero run ends at bit 31 while more than 32 bits are
still requested), that boolean is true iff the next `n` bits of the random
stream in consumption order are all zero; on true exactly `n` bits are
consumed, and on false exactly the leading zero count plus one (up to and
including the first one bit); `all_next 0` always returns true and consumes
zero bits. -/
theorem C1_all_next_zero_run (n : Nat) (s : CoinFlipper)
    (h32 : s.chunk_remaining ≤ 32) :
    (∀ (b : Bool) (s' : CoinFlipper), all_next s n = some (b, s') →
      (b = true ↔ ∀ i < n, streamBit s i = false) ∧
      (b = true →
        idx s' = idx s + n ∧
        ∀ i, streamBit s' i = streamBit s (n + i)) ∧
      (b = false →
        ∃ z, z < n ∧ (∀ i < z, streamBit s i = false) ∧ streamBit s z = true ∧
          idx s' = idx s + z + 1 ∧
          ∀ i, streamBit s' i = streamBit s (z + 1 + i))) ∧
    all_next s 0 = some (true, s) := by
  constructor
  · intro b s' heq
    obtain ⟨-, -, g3, g4, g5⟩ := allNext_spec n s h32 b s' heq
    exact ⟨g3, g4, g5⟩
  · rw [all_next_final_true (by omega) (by omega)]
    simp

/-- Witness for C1 at a concrete state. -/
theorem C1_all_next_zero_run_witness :
    all_next ⟨fun _ => 0, 0, 0, 0⟩ 0 = some (true, ⟨fun _ => 0, 0, 0, 0⟩) :=
  (C1_all_next_zero_run 0 ⟨fun _ => 0, 0, 0, 0⟩ (by decide)).2

/-! ## Claim C6 -/

theorem tz32_pos_iff (x : Nat) : 0 < tz32 x ↔ x % 2 = 0 := by
  constructor
  · intro h
    have h0 := testBit_eq_false_of_lt_tz32 (x := x) (i := 0) h
    simp only [Nat.testBit_zero, decide_eq_false_iff_not] at h0
    omega
  · intro h
    refine le_tz32_of_testBit (by omega) ?_
    intro i hi
    have hi0 : i = 0 := by omega
    subst hi0
    simp only [Nat.testBit_zero, decide_eq_false_iff_not]
    omega

/-- **C6**: `next` satisfies the Bit Buffer contract: with
`chunk_remaining > 0` it decrements the count, answers from bit 0 of
`chunk` (true exactly when that bit is zero) and shifts `chunk` right by
one; with `chunk_remaining = 0` it first draws a fresh word, sets the
count to 31, and consumes the new word's low bit the same way. -/
theorem C6_next_contract (s : CoinFlipper) :
    (0 < s.chunk_remaining →
      next s = (decide (s.chunk % 2 = 0),
        ⟨s.stream, s.pos, s.chunk >>> 1, s.chunk_remaining - 1⟩)) ∧
    (s.chunk_remaining = 0 →
      next s = (decide (s.stream s.pos % 2 ^ 32 % 2 = 0),
        ⟨s.stream, s.pos + 1, (s.stream s.pos % 2 ^ 32) >>> 1, 31⟩)) := by
  constructor
  · intro h
    simp only [next, if_pos (show 1 ≤ s.chunk_remaining from h), tz32_pos_iff]
  · intro h
    have h1 : ¬ 1 ≤ s.chunk_remaining := by omega
    simp only [next, if_neg h1, tz32_pos_iff]

/-- Witness for C6 at a concrete state. -/
theorem C6_next_contract_witness :
    next ⟨fun _ => 6, 0, 5, 2⟩ = (decide ((5 : Nat) % 2 = 0),
      ⟨fun _ => 6, 0, 5 >>> 1, 1⟩) :=
  (C6_next_contract ⟨fun _ => 6, 0, 5, 2⟩).1 (by decide)

/-! ## One-step unfolding lemmas for `gen_ratio` and `gen_ratio_one_over` -/

theorem gen_ratio_ge {num den : Nat} (fuel : Nat) (s : CoinFlipper)
    (h : ¬ num < den) : gen_ratio fuel num den s = some (true, s) := by
  rw [gen_ratio.eq_def]
  simp only [if_neg h]

theorem gen_ratio_zero_lt {num den : Nat} (s : CoinFlipper)
    (h : num < den) : gen_ratio 0 num den s = none := by
  rw [gen_ratio.eq_def]
  simp only [if_pos h]

theorem gen_ratio_succ_lt {num den : Nat} (f : Nat) (s : CoinFlipper)
    (h : num < den) :
    gen_ratio (f + 1) num den s =
      if num * 2 ≤ usizeMax then
        (if (next s).1 then gen_ratio f (num * 2) den (next s).2
         else if num * 2 < den then some (false, (next s).2)
         else gen_ratio f (num * 2 - den) den (next s).2)
      else
        (if (next s).1 then some (true, (next s).2)
         else gen_ratio f (wrapping_add (wrapping_sub num den) num) den
           (next s).2) := by
  rw [gen_ratio.eq_def]
  simp only [if_pos h]

theorem gen_ratio_one_over_eq (fuel d : Nat) (s : CoinFlipper)
    (hg : 1 ≤ usizeBits - leading_zeros d) :
    gen_ratio_one_over fuel s d =
      match all_next s (usizeBits - leading_zeros d - 1) with
      | none => none
      | some (ok, s1) =>
        if ok then
          gen_ratio fuel (1 <<< (usizeBits - leading_zeros d - 1)) d s1
        else
          some (false, s1) := by
  rw [gen_ratio_one_over, if_pos hg]

/-! ## Invariant preservation (claim C7) -/

theorem next_chunk_remaining_le (s : CoinFlipper)
    (h : s.chunk_remaining ≤ 32) : (next s).2.chunk_remaining ≤ 32 := by
  by_cases h1 : 1 ≤ s.chunk_remaining
  · simp only [next, if_pos h1]
    omega
  · simp only [next, if_neg h1]
    omega

theorem gen_ratio_chunk_remaining_le :
    ∀ (fuel num den : Nat) (s : CoinFlipper) (b : Bool) (s' : CoinFlipper),
      s.chunk_remaining ≤ 32 → gen_ratio fuel num den s = some (b, s') →
      s'.chunk_remaining ≤ 32 := by
  intro fuel
  induction fuel with
  | zero =>
    intro num den s b s' h32 heq
    by_cases hnd : num < den
    · rw [gen_ratio_zero_lt s hnd] at heq
      exact Option.noConfusion heq
    · rw [gen_ratio_ge 0 s hnd] at heq
      have h2 := Option.some.inj heq
      rw [Prod.mk.injEq] at h2
      rw [← h2.2]
      exact h32
  | succ f ih =>
    intro num den s b s' h32 heq
    by_cases hnd : num < den
    · rw [gen_ratio_succ_lt f s hnd] at heq
      have hnx := next_chunk_remaining_le s h32
      by_cases hcm : num * 2 ≤ usizeMax
      · rw [if_pos hcm] at heq
        cases hb : (next s).1
        · rw [hb] at heq
          simp only [Bool.false_eq_true, if_false] at heq
          by_cases hnd2 : num * 2 < den
          · rw [if_pos hnd2] at heq
            have h2 := Option.some.inj heq
            rw [Prod.mk.injEq] at h2
            rw [← h2.2]
            exact hnx
          · rw [if_neg hnd2] at heq
            exact ih _ _ _ _ _ hnx heq
        · rw [hb] at heq
          simp only [if_true] at heq
          exact ih _ _ _ _ _ hnx heq
      · rw [if_neg hcm] at heq
        cases hb : (next s).1
        · rw [hb] at heq
          simp only [Bool.false_eq_true, if_false] at heq
          exact ih _ _ _ _ _ hnx heq
        · rw [hb] at heq
          simp only [if_true] at heq
          have h2 := Option.some.inj heq
          rw [Prod.mk.injEq] at h2
          rw [← h2.2]
          exact hnx
    · rw [gen_ratio_ge (f + 1) s hnd] at heq
      have h2 := Option.some.inj heq
      rw [Prod.mk.injEq] at h2
      rw [← h2.2]
      exact h32

theorem gen_ratio_one_over_chunk_remaining_le
    (fuel d : Nat) (s : CoinFlipper) (b : Bool) (s' : CoinFlipper)
    (h32 : s.chunk_remaining ≤ 32)
    (heq : gen_ratio_one_over fuel s d = some (b, s')) :
    s'.chunk_remaining ≤ 32 := by
  by_cases hg : 1 ≤ usizeBits - leading_zeros d
  · rw [gen_ratio_one_over_eq fuel d s hg] at heq
    cases hall : all_next s (usizeBits - leading_zeros d - 1) with
    | none =>
      rw [hall] at heq
      exact Option.noConfusion heq
    | some p =>
      obtain ⟨ok, s1⟩ := p
      rw [hall] at heq
      have hcr1 : s1.chunk_remaining ≤ 32 :=
        (allNext_spec (usizeBits - leading_zeros d - 1) s h32 ok s1 hall).2.1
      cases ok
      · simp only [Bool.false_eq_true, if_false] at heq
        have h2 := Option.some.inj heq
        rw [Prod.mk.injEq] at h2
        rw [← h2.2]
        exact hcr1
      · simp only [if_true] at heq
        exact gen_ratio_chunk_remaining_le _ _ _ _ _ _ hcr1 heq
  · rw [gen_ratio_one_over, if_neg hg] at heq
    exact Option.noConfusion heq

/-! ## Claim C7 -/

/-- **C7**: `chunk_remaining ≤ 32` is an invariant: it holds after `new`,
and `next`, `all_next`, `gen_ratio` and `gen_ratio_one_over` all preserve
it. -/
theorem C7_chunk_remaining_invariant :
    (∀ f : Nat → Nat, (CoinFlipper.new f).chunk_remaining ≤ 32) ∧
    (∀ s : CoinFlipper, s.chunk_remaining ≤ 32 →
      (next s).2.chunk_remaining ≤ 32) ∧
    (∀ (s : CoinFlipper) (n : Nat) (b : Bool) (s' : CoinFlipper),
      s.chunk_remaining ≤ 32 → all_next s n = some (b, s') →
      s'.chunk_remaining ≤ 32) ∧
    (∀ (fuel num den : Nat) (s : CoinFlipper) (b : Bool) (s' : CoinFlipper),
      s.chunk_remaining ≤ 32 → gen_ratio fuel num den s = some (b, s') →
      s'.chunk_remaining ≤ 32) ∧
    (∀ (fuel d : Nat) (s : CoinFlipper) (b : Bool) (s' : CoinFlipper),
      s.chunk_remaining ≤ 32 → gen_ratio_one_over fuel s d = some (b, s') →
      s'.chunk_remaining ≤ 32) :=
  ⟨fun _ => by simp [CoinFlipper.new],
   next_chunk_remaining_le,
   fun s n b s' h heq => (allNext_spec n s h b s' heq).2.1,
   gen_ratio_chunk_remaining_le,
   fun fuel d s b s' h heq =>
     gen_ratio_one_over_chunk_remaining_le fuel d s b s' h heq⟩

/-- Witness for C7 at a concrete state. -/
theorem C7_chunk_remaining_invariant_witness :
    (⟨fun _ => 3, 0, 1, 4⟩ : CoinFlipper).chunk_remaining ≤ 32 :=
  C7_chunk_remaining_invariant.2.2.1 ⟨fun _ => 3, 0, 1, 4⟩ 0 true
    ⟨fun _ => 3, 0, 1, 4⟩ (by decide)
    (by rw [all_next_final_true (by decide) (by decide)]; simp)

/-! ## Claim C3 -/

/-- **C3**: with `numerator ≥ denominator ≥ 1`, `gen_ratio` returns true
immediately: the state (including the source cursor and the bit buffer) is
returned unchanged, so no bits are consumed. -/
theorem C3_gen_ratio_certain (fuel num den : Nat) (s : CoinFlipper)
    (hd : 1 ≤ den) (h : den ≤ num) :
    gen_ratio fuel num den s = some (true, s) :=
  gen_ratio_ge fuel s (by clear hd; omega)

/-- Witness for C3 at a concrete input. -/
theorem C3_gen_ratio_certain_witness :
    gen_ratio 0 5 3 ⟨fun _ => 0, 0, 0, 0⟩ = some (true, ⟨fun _ => 0, 0, 0, 0⟩) :=
  C3_gen_ratio_certain 0 5 3 ⟨fun _ => 0, 0, 0, 0⟩ (by omega) (by omega)

/-! ## Claim C9 -/

/-- **C9**: whenever `gen_ratio 0 d` (zero numerator, `d ≥ 1`) returns, the
answer is false, for every denominator, state and bit stream.  (On heads the
numerator stays `0` and the loop continues, so on an all-heads stream the
Rust loop diverges; the fuel-indexed embedding returns `none` there, and
every `some` result is false.) -/
theorem C9_gen_ratio_zero_numerator (fuel den : Nat) (s : CoinFlipper)
    (hd : 1 ≤ den) :
    ∀ (b : Bool) (s' : CoinFlipper),
      gen_ratio fuel 0 den s = some (b, s') → b = false := by
  induction fuel generalizing s with
  | zero =>
    intro b s' heq
    rw [gen_ratio_zero_lt s (by omega)] at heq
    exact Option.noConfusion heq
  | succ f ih =>
    intro b s' heq
    rw [gen_ratio_succ_lt f s (by omega)] at heq
    rw [if_pos (by simp [usizeMax])] at heq
    cases hb : (next s).1
    · rw [hb] at heq
      simp only [Bool.false_eq_true, if_false] at heq
      rw [if_pos (by omega : 0 * 2 < den)] at heq
      have h2 := Option.some.inj heq
      exact (congrArg Prod.fst h2).symm
    · rw [hb] at heq
      simp only [if_true] at heq
      rw [show (0 : Nat) * 2 = 0 from by omega] at heq
      exact ih (next s).2 b s' heq

/-- Witness for C9 at a concrete input: on the stream of all-ones words the
first flip is tails and `gen_ratio 0 2` returns false. -/
theorem C9_gen_ratio_zero_numerator_witness : false = false :=
  C9_gen_ratio_zero_numerator 3 2 ⟨fun _ => 1, 0, 0, 0⟩ (by omega)
    false ⟨fun _ => 1, 1, 0, 31⟩ rfl

/-! ## Claim C4 -/

/-- **C4**: when doubling would overflow (`numerator > usize::MAX / 2`)
while `numerator < denominator`, the overflow branch is taken: on heads it
returns true immediately, on tails it continues with
`numerator.wrapping_sub(denominator).wrapping_add(numerator)`, and that
wrapping value equals the exact `2*numerator - denominator`, which fits in
the integer width — no wraparound survives into the result. -/
theorem C4_overflow_branch (fuel num den : Nat) (s : CoinFlipper)
    (hnd : num < den) (hden : den ≤ usizeMax) (hbig : usizeMax / 2 < num) :
    gen_ratio (fuel + 1) num den s
      = (if (next s).1 then some (true, (next s).2)
         else gen_ratio fuel (wrapping_add (wrapping_sub num den) num) den
           (next s).2) ∧
    wrapping_add (wrapping_sub num den) num = 2 * num - den ∧
    2 * num - den ≤ usizeMax := by
  have hover : ¬ num * 2 ≤ usizeMax := by
    simp only [usizeMax] at hbig ⊢
    omega
  refine ⟨?_, ?_, ?_⟩
  · rw [gen_ratio_succ_lt fuel s hnd, if_neg hover]
  · simp only [wrapping_add, wrapping_sub, usizeMax] at *
    have h1 : num % 2 ^ 64 = num := Nat.mod_eq_of_lt (by omega)
    have h2 : den % 2 ^ 64 = den := Nat.mod_eq_of_lt (by omega)
    rw [h1, h2]
    have h3 : num + 2 ^ 64 - den < 2 ^ 64 := by omega
    rw [Nat.mod_eq_of_lt h3]
    have h4 : num + 2 ^ 64 - den + num = (2 * num - den) + 2 ^ 64 := by omega
    rw [h4, Nat.add_mod_right, Nat.mod_eq_of_lt (by omega)]
  · simp only [usizeMax] at *
    omega

/-- Witness for C4 at a concrete input (`num = 2^63`, `den = 2^63 + 1`). -/
theorem C4_overflow_branch_witness :
    (gen_ratio 1 (2 ^ 63) (2 ^ 63 + 1) ⟨fun _ => 0, 0, 0, 0⟩
      = (if (next ⟨fun _ => 0, 0, 0, 0⟩).1 then
           some (true, (next ⟨fun _ => 0, 0, 0, 0⟩).2)
         else gen_ratio 0
           (wrapping_add (wrapping_sub (2 ^ 63) (2 ^ 63 + 1)) (2 ^ 63))
           (2 ^ 63 + 1) (next ⟨fun _ => 0, 0, 0, 0⟩).2)) ∧
    wrapping_add (wrapping_sub (2 ^ 63) (2 ^ 63 + 1)) (2 ^ 63)
      = 2 * 2 ^ 63 - (2 ^ 63 + 1) ∧
    2 * 2 ^ 63 - (2 ^ 63 + 1) ≤ usizeMax :=
  C4_overflow_branch 0 (2 ^ 63) (2 ^ 63 + 1) ⟨fun _ => 0, 0, 0, 0⟩
    (by norm_num) (by norm_num [usizeMax]) (by norm_num [usizeMax])

/-! ## Claim C5 -/

/-- **C5**: `gen_ratio_one_over` with `denominator = 0` fails fast rather
than returning a boolean: the bit-length computation
`usize::BITS - leading_zeros(0) - 1 = 64 - 64 - 1` underflows in `u32`
arithmetic, an arithmetic overflow error (modelled as `none`). -/
theorem C5_zero_denominator_panics (fuel : Nat) (s : CoinFlipper) :
    gen_ratio_one_over fuel s 0 = none := by
  rw [gen_ratio_one_over, if_neg (by decide)]

/-! ## Bit length and the fast path (claim C2) -/

theorem bitLenAux_le (f x : Nat) : bitLenAux f x ≤ f := by
  induction f generalizing x with
  | zero => simp [bitLenAux]
  | succ f ih =>
    simp only [bitLenAux]
    split
    · omega
    · have := ih (x / 2); omega

theorem bitLenAux_zero (f : Nat) : bitLenAux f 0 = 0 := by
  cases f <;> simp [bitLenAux]

theorem bitLenAux_spec :
    ∀ (f x : Nat), 1 ≤ x → x < 2 ^ f →
      1 ≤ bitLenAux f x ∧ 2 ^ (bitLenAux f x - 1) ≤ x ∧ x < 2 ^ bitLenAux f x := by
  intro f
  induction f with
  | zero =>
    intro x h1 h2
    simp at h2
    omega
  | succ f ih =>
    intro x h1 h2
    have hx : ¬ x = 0 := by omega
    simp only [bitLenAux, if_neg hx]
    by_cases hx2 : x / 2 = 0
    · have hx1 : x = 1 := by omega
      subst hx1
      rw [bitLenAux_zero]
      norm_num
    · have hp : (2 : Nat) ^ (f + 1) = 2 * 2 ^ f := by rw [pow_succ]; ring
      have hlt : x / 2 < 2 ^ f := by omega
      obtain ⟨a, b, c⟩ := ih (x / 2) (by omega) hlt
      refine ⟨by omega, ?_, ?_⟩
      · have e1 : bitLenAux f (x / 2) + 1 - 1 = (bitLenAux f (x / 2) - 1) + 1 := by
          omega
        rw [e1, pow_succ]
        have : 2 ^ (bitLenAux f (x / 2) - 1) * 2 ≤ (x / 2) * 2 := by
          exact Nat.mul_le_mul_right 2 b
        omega
      · rw [pow_succ]
        have : (x / 2 + 1) * 2 ≤ 2 ^ bitLenAux f (x / 2) * 2 :=
          Nat.mul_le_mul_right 2 (by omega)
        omega

/-- For `1 ≤ d < 2^64`, the `n` computed by `gen_ratio_one_over` is the
position of the highest set bit of `d`. -/
theorem fast_path_exponent (d : Nat) (h1 : 1 ≤ d) (h2 : d < 2 ^ 64) :
    usizeBits - leading_zeros d - 1 = Nat.log2 d ∧
    1 ≤ usizeBits - leading_zeros d := by
  obtain ⟨a, b, c⟩ := bitLenAux_spec 64 d h1 h2
  have hle : bitLenAux 64 d ≤ 64 := bitLenAux_le 64 d
  have he : usizeBits - leading_zeros d - 1 = bitLen d - 1 := by
    simp only [usizeBits, leading_zeros, bitLen]
    omega
  have he2 : 1 ≤ usizeBits - leading_zeros d := by
    simp only [usizeBits, leading_zeros, bitLen]
    omega
  refine ⟨?_, he2⟩
  rw [he]
  have hd0 : d ≠ 0 := by omega
  have hlo : bitLen d - 1 ≤ Nat.log2 d := by
    rw [Nat.le_log2 hd0]
    exact b
  have hhi : Nat.log2 d < bitLen d := by
    rw [Nat.log2_lt hd0]
    exact c
  omega

/-- **C2**: for `d ≥ 1`, `gen_ratio_one_over` computes
`n = 64 - leading_zeros d - 1 = ⌊log2 d⌋`, returns false whenever
`all_next n` returns false, and otherwise runs `gen_ratio (2^n) d` on the
buffer state `all_next` produced. -/
theorem C2_one_over_fast_path (fuel d : Nat) (s : CoinFlipper)
    (h1 : 1 ≤ d) (h2 : d ≤ usizeMax) :
    usizeBits - leading_zeros d - 1 = Nat.log2 d ∧
    gen_ratio_one_over fuel s d
      = (match all_next s (Nat.log2 d) with
         | none => none
         | some (ok, s1) =>
           if ok then gen_ratio fuel (2 ^ Nat.log2 d) d s1
           else some (false, s1)) := by
  have h2' : d < 2 ^ 64 := by simp only [usizeMax] at h2; omega
  obtain ⟨hn, hg⟩ := fast_path_exponent d h1 h2'
  refine ⟨hn, ?_⟩
  rw [gen_ratio_one_over_eq fuel d s hg, hn]
  simp only [Nat.shiftLeft_eq, one_mul]

/-- Witness for C2 at a concrete input (`d = 5`, so `n = 2`). -/
theorem C2_one_over_fast_path_witness :
    usizeBits - leading_zeros 5 - 1 = Nat.log2 5 ∧
    gen_ratio_one_over 2 ⟨fun _ => 0, 0, 0, 0⟩ 5
      = (match all_next ⟨fun _ => 0, 0, 0, 0⟩ (Nat.log2 5) with
         | none => none
         | some (ok, s1) =>
           if ok then gen_ratio 2 (2 ^ Nat.log2 5) 5 s1
           else some (false, s1)) :=
  C2_one_over_fast_path 2 5 ⟨fun _ => 0, 0, 0, 0⟩ (by norm_num)
    (by norm_num [usizeMax])

/-! ## Checked-arithmetic variant of `all_next` (claim C10) -/

/-- `all_next` with every unchecked subtraction guarded: `n -= chunk_remaining`
requires `chunk_remaining ≤ n`, `chunk_remaining -= zeros + 1` requires
`zeros + 1 ≤ chunk_remaining`, and the final `saturating_sub` is replaced by
an exact subtraction guarded by `bits_to_consume ≤ chunk_remaining` (so that
saturation would be reported as `none`).  Any underflow yields `none`.  The
early-return branch keeps the same shift guard (`zeros + 1 < 32`) as
`all_next` itself, so the two differ only in the subtraction guards. -/
def all_next_checked (s : CoinFlipper) (n : Nat) :
    Option (Bool × CoinFlipper) :=
  if _h : s.chunk_remaining < n then
    let zeros := tz32 s.chunk
    if s.chunk_remaining ≤ zeros then
      if s.chunk_remaining ≤ n then
        all_next_checked
          ⟨s.stream, s.pos + 1, s.stream s.pos % 2 ^ 32, 32⟩
          (n - s.chunk_remaining)
      else none
    else
      if zeros + 1 < 32 then
        if zeros + 1 ≤ s.chunk_remaining then
          some (false, ⟨s.stream, s.pos, s.chunk >>> (zeros + 1),
            s.chunk_remaining - (zeros + 1)⟩)
        else none
      else none
  else
    let zeros := tz32 s.chunk
    let bits_to_consume := if n ≤ zeros then n else zeros + 1
    if bits_to_consume ≤ s.chunk_remaining then
      some (decide (n ≤ zeros),
        ⟨s.stream, s.pos, s.chunk >>> (bits_to_consume % 32),
          s.chunk_remaining - bits_to_consume⟩)
    else none
termination_by n + (33 - min s.chunk_remaining 33)
decreasing_by simp; omega

theorem all_next_checked_eq_aux :
    ∀ (m n : Nat) (s : CoinFlipper),
      s.chunk_remaining ≤ 32 → n + 33 - s.chunk_remaining ≤ m →
      all_next_checked s n = all_next s n := by
  intro m
  induction m with
  | zero => intro n s h32 hm; omega
  | succ m ih =>
    intro n s h32 hm
    by_cases hlt : s.chunk_remaining < n
    · by_cases hz : s.chunk_remaining ≤ tz32 s.chunk
      · rw [all_next_loop_refill hlt hz]
        conv_lhs => rw [all_next_checked.eq_def]
        simp only [dif_pos hlt, if_pos hz, if_pos (Nat.le_of_lt hlt)]
        exact ih (n - s.chunk_remaining)
          ⟨s.stream, s.pos + 1, s.stream s.pos % 2 ^ 32, 32⟩
          (by show (32 : Nat) ≤ 32; omega)
          (by show n - s.chunk_remaining + 33 - 32 ≤ m; omega)
      · by_cases hp : tz32 s.chunk + 1 < 32
        · rw [all_next_loop_stop hlt hz hp]
          conv_lhs => rw [all_next_checked.eq_def]
          simp only [dif_pos hlt, if_neg hz, if_pos hp,
            if_pos (show tz32 s.chunk + 1 ≤ s.chunk_remaining by omega)]
        · rw [all_next_loop_panic hlt hz hp]
          conv_lhs => rw [all_next_checked.eq_def]
          simp only [dif_pos hlt, if_neg hz, if_neg hp]
    · by_cases hres : n ≤ tz32 s.chunk
      · rw [all_next_final_true hlt hres]
        conv_lhs => rw [all_next_checked.eq_def]
        simp only [dif_neg hlt, if_pos hres,
          if_pos (show n ≤ s.chunk_remaining by omega), decide_eq_true hres]
      · rw [all_next_final_false hlt hres]
        conv_lhs => rw [all_next_checked.eq_def]
        simp only [dif_neg hlt, if_neg hres,
          if_pos (show tz32 s.chunk + 1 ≤ s.chunk_remaining by omega),
          decide_eq_false hres]

/-- **C10**: under the invariant `chunk_remaining ≤ 32`, the unchecked
subtractions inside `all_next` never underflow and the final saturating
subtraction never saturates: the subtraction-guarded variant
`all_next_checked` (whose result is `none` on any underflow or saturation)
computes exactly `all_next` — every subtraction guard passes on every path
`all_next` itself takes, including the shift-overflow edge case, where the
failure is the shift and not a subtraction. -/
theorem C10_all_next_no_underflow (n : Nat) (s : CoinFlipper)
    (h32 : s.chunk_remaining ≤ 32) :
    all_next_checked s n = all_next s n :=
  all_next_checked_eq_aux (n + 33) n s h32 (by omega)

/-- Witness for C10 at a concrete state. -/
theorem C10_all_next_no_underflow_witness :
    all_next_checked ⟨fun _ => 9, 0, 6, 3⟩ 2
      = all_next ⟨fun _ => 9, 0, 6, 3⟩ 2 :=
  C10_all_next_no_underflow 2 ⟨fun _ => 9, 0, 6, 3⟩ (by decide)

/-! ## Observational equivalence (claim C8)

Two states are observably equal when they have the same source stream and
cursor, the same `chunk_remaining`, and agree on the low `chunk_remaining`
bits of `chunk` — the bits above that count are stale. -/

def obsEq (s t : CoinFlipper) : Prop :=
  s.stream = t.stream ∧ s.pos = t.pos ∧
  s.chunk_remaining = t.chunk_remaining ∧
  ∀ i < s.chunk_remaining, s.chunk.testBit i = t.chunk.testBit i

def optObsEq : Option (Bool × CoinFlipper) → Option (Bool × CoinFlipper) → Prop
  | none, none => True
  | some (b, s), some (c, t) => b = c ∧ obsEq s t
  | _, _ => False

theorem next_pos_eq {s : CoinFlipper} (h : 1 ≤ s.chunk_remaining) :
    next s = (decide (0 < tz32 s.chunk),
      ⟨s.stream, s.pos, s.chunk >>> 1, s.chunk_remaining - 1⟩) := by
  simp only [next, if_pos h]

theorem next_zero_eq {s : CoinFlipper} (h : ¬ 1 ≤ s.chunk_remaining) :
    next s = (decide (0 < tz32 (s.stream s.pos % 2 ^ 32)),
      ⟨s.stream, s.pos + 1, (s.stream s.pos % 2 ^ 32) >>> 1, 32 - 1⟩) := by
  simp only [next, if_neg h]

theorem next_congr (s t : CoinFlipper) (h : obsEq s t) :
    (next s).1 = (next t).1 ∧ obsEq (next s).2 (next t).2 := by
  obtain ⟨h1, h2, h3, h4⟩ := h
  by_cases hc : 1 ≤ s.chunk_remaining
  · have hct : 1 ≤ t.chunk_remaining := by omega
    have hb0 : s.chunk % 2 = t.chunk % 2 := by
      have := h4 0 (by omega)
      simp only [Nat.testBit_zero, decide_eq_decide] at this
      omega
    rw [next_pos_eq hc, next_pos_eq hct]
    refine ⟨?_, h1, h2,
      by show s.chunk_remaining - 1 = t.chunk_remaining - 1; omega, ?_⟩
    · simp only [decide_eq_decide, tz32_pos_iff]
      omega
    · intro i hi
      have hi2 : i < s.chunk_remaining - 1 := hi
      show (s.chunk >>> 1).testBit i = (t.chunk >>> 1).testBit i
      rw [Nat.testBit_shiftRight, Nat.testBit_shiftRight]
      exact h4 (1 + i) (by omega)
  · have hct : ¬ 1 ≤ t.chunk_remaining := by omega
    rw [next_zero_eq hc, next_zero_eq hct, h1, h2]
    exact ⟨rfl, rfl, rfl, rfl, fun i _ => rfl⟩

theorem allNext_congr_aux :
    ∀ (m n : Nat) (s t : CoinFlipper), obsEq s t →
      n + 34 - min s.chunk_remaining 33 ≤ m →
      optObsEq (all_next s n) (all_next t n) := by
  intro m
  induction m with
  | zero => intro n s t h hm; omega
  | succ m ih =>
    intro n s t h hm
    obtain ⟨h1, h2, h3, h4⟩ := h
    by_cases hlt : s.chunk_remaining < n
    · have hltt : t.chunk_remaining < n := by omega
      by_cases hz : s.chunk_remaining ≤ tz32 s.chunk
      · have hzt : t.chunk_remaining ≤ tz32 t.chunk := by
          rw [← h3]
          exact ((tz32_agree h4).1 s.chunk_remaining (Nat.le_refl _)).mp hz
        rw [all_next_loop_refill hlt hz, all_next_loop_refill hltt hzt, ← h3]
        refine ih (n - s.chunk_remaining) _ _
          ⟨h1, by show s.pos + 1 = t.pos + 1; rw [h2], rfl, ?_⟩ ?_
        · intro i hi
          show (s.stream s.pos % 2 ^ 32).testBit i
              = (t.stream t.pos % 2 ^ 32).testBit i
          rw [h1, h2]
        · show n - s.chunk_remaining + 34 - min 32 33 ≤ m
          omega
      · have hzeq : tz32 s.chunk = tz32 t.chunk := (tz32_agree h4).2 (by omega)
        have hzt : ¬ t.chunk_remaining ≤ tz32 t.chunk := by
          rw [← h3, ← hzeq]; exact hz
        by_cases hp : tz32 s.chunk + 1 < 32
        · have hpt : tz32 t.chunk + 1 < 32 := by rw [← hzeq]; exact hp
          rw [all_next_loop_stop hlt hz hp, all_next_loop_stop hltt hzt hpt]
          refine ⟨rfl, h1, h2, ?_, ?_⟩
          · show s.chunk_remaining - (tz32 s.chunk + 1)
              = t.chunk_remaining - (tz32 t.chunk + 1)
            rw [h3, hzeq]
          · intro i hi
            have hi2 : i < s.chunk_remaining - (tz32 s.chunk + 1) := hi
            show (s.chunk >>> (tz32 s.chunk + 1)).testBit i
                = (t.chunk >>> (tz32 t.chunk + 1)).testBit i
            rw [Nat.testBit_shiftRight, Nat.testBit_shiftRight, ← hzeq]
            exact h4 (tz32 s.chunk + 1 + i) (by omega)
        · have hpt : ¬ tz32 t.chunk + 1 < 32 := by rw [← hzeq]; exact hp
          rw [all_next_loop_panic hlt hz hp, all_next_loop_panic hltt hzt hpt]
          trivial
    · have hltt : ¬ t.chunk_remaining < n := by omega
      have hagree : ∀ i < n, s.chunk.testBit i = t.chunk.testBit i :=
        fun i hi => h4 i (by omega)
      by_cases hres : n ≤ tz32 s.chunk
      · have hrest : n ≤ tz32 t.chunk :=
          ((tz32_agree hagree).1 n (Nat.le_refl _)).mp hres
        rw [all_next_final_true hlt hres, all_next_final_true hltt hrest]
        refine ⟨rfl, h1, h2, ?_, ?_⟩
        · show s.chunk_remaining - n = t.chunk_remaining - n
          rw [h3]
        · intro i hi
          have hi2 : i < s.chunk_remaining - n := hi
          show (s.chunk >>> (n % 32)).testBit i = (t.chunk >>> (n % 32)).testBit i
          rw [Nat.testBit_shiftRight, Nat.testBit_shiftRight]
          exact h4 (n % 32 + i) (by omega)
      · have hrest : ¬ n ≤ tz32 t.chunk := by
          intro hcon
          exact hres (((tz32_agree hagree).1 n (Nat.le_refl _)).mpr hcon)
        have hzeq : tz32 s.chunk = tz32 t.chunk := (tz32_agree hagree).2 (by omega)
        rw [all_next_final_false hlt hres, all_next_final_false hltt hrest]
        refine ⟨rfl, h1, h2, ?_, ?_⟩
        · show s.chunk_remaining - (tz32 s.chunk + 1)
            = t.chunk_remaining - (tz32 t.chunk + 1)
          rw [h3, hzeq]
        · intro i hi
          have hi2 : i < s.chunk_remaining - (tz32 s.chunk + 1) := hi
          show (s.chunk >>> ((tz32 s.chunk + 1) % 32)).testBit i
              = (t.chunk >>> ((tz32 t.chunk + 1) % 32)).testBit i
          rw [Nat.testBit_shiftRight, Nat.testBit_shiftRight, ← hzeq]
          exact h4 ((tz32 s.chunk + 1) % 32 + i) (by omega)

theorem allNext_congr (n : Nat) (s t : CoinFlipper) (h : obsEq s t) :
    optObsEq (all_next s n) (all_next t n) :=
  allNext_congr_aux (n + 34) n s t h (by omega)

theorem gen_ratio_congr :
    ∀ (fuel num den : Nat) (s t : CoinFlipper), obsEq s t →
      optObsEq (gen_ratio fuel num den s) (gen_ratio fuel num den t) := by
  intro fuel
  induction fuel with
  | zero =>
    intro num den s t h
    by_cases hnd : num < den
    · rw [gen_ratio_zero_lt s hnd, gen_ratio_zero_lt t hnd]
      trivial
    · rw [gen_ratio_ge 0 s hnd, gen_ratio_ge 0 t hnd]
      exact ⟨rfl, h⟩
  | succ f ih =>
    intro num den s t h
    by_cases hnd : num < den
    · rw [gen_ratio_succ_lt f s hnd, gen_ratio_succ_lt f t hnd]
      obtain ⟨hb, hs⟩ := next_congr s t h
      by_cases hcm : num * 2 ≤ usizeMax
      · rw [if_pos hcm, if_pos hcm]
        cases hb1 : (next s).1
        · have hb2 : (next t).1 = false := by rw [← hb, hb1]
          rw [hb2]
          simp only [Bool.false_eq_true, if_false]
          by_cases hnd2 : num * 2 < den
          · rw [if_pos hnd2, if_pos hnd2]
            exact ⟨rfl, hs⟩
          · rw [if_neg hnd2, if_neg hnd2]
            exact ih _ _ _ _ hs
        · have hb2 : (next t).1 = true := by rw [← hb, hb1]
          rw [hb2]
          simp only [if_true]
          exact ih _ _ _ _ hs
      · rw [if_neg hcm, if_neg hcm]
        cases hb1 : (next s).1
        · have hb2 : (next t).1 = false := by rw [← hb, hb1]
          rw [hb2]
          simp only [Bool.false_eq_true, if_false]
          exact ih _ _ _ _ hs
        · have hb2 : (next t).1 = true := by rw [← hb, hb1]
          rw [hb2]
          simp only [if_true]
          exact ⟨rfl, hs⟩
    · rw [gen_ratio_ge (f + 1) s hnd, gen_ratio_ge (f + 1) t hnd]
      exact ⟨rfl, h⟩

theorem gen_ratio_one_over_congr (fuel d : Nat) (s t : CoinFlipper)
    (h : obsEq s t) :
    optObsEq (gen_ratio_one_over fuel s d) (gen_ratio_one_over fuel t d) := by
  by_cases hg : 1 ≤ usizeBits - leading_zeros d
  · rw [gen_ratio_one_over_eq fuel d s hg, gen_ratio_one_over_eq fuel d t hg]
    have hco := allNext_congr (usizeBits - leading_zeros d - 1) s t h
    cases hs1 : all_next s (usizeBits - leading_zeros d - 1) with
    | none =>
      cases ht1 : all_next t (usizeBits - leading_zeros d - 1) with
      | none => trivial
      | some q =>
        rw [hs1, ht1] at hco
        exact hco.elim
    | some p =>
      obtain ⟨ok, s1⟩ := p
      cases ht1 : all_next t (usizeBits - leading_zeros d - 1) with
      | none =>
        rw [hs1, ht1] at hco
        exact hco.elim
      | some q =>
        obtain ⟨ok2, t1⟩ := q
        rw [hs1, ht1] at hco
        have hco2 : ok = ok2 ∧ obsEq s1 t1 := hco
        obtain ⟨hbeq, hst⟩ := hco2
        subst hbeq
        cases ok
        · exact ⟨rfl, hst⟩
        · exact gen_ratio_congr fuel _ d s1 t1 hst
  · rw [gen_ratio_one_over, if_neg hg, gen_ratio_one_over, if_neg hg]
    trivial

/-! ## Claim C8 -/

/-- **C8**: stale bits are never read.  For each of the four operations, two
starting states that agree on the source stream and cursor, on
`chunk_remaining`, and on the low `chunk_remaining` bits of `chunk` produce
the same outcome — the same boolean (or both panic), the same source
consumption (equal cursors) — and final states that again agree in the same
sense. -/
theorem C8_stale_bits_never_read :
    (∀ s t : CoinFlipper, obsEq s t →
      (next s).1 = (next t).1 ∧ obsEq (next s).2 (next t).2) ∧
    (∀ (n : Nat) (s t : CoinFlipper), obsEq s t →
      optObsEq (all_next s n) (all_next t n)) ∧
    (∀ (fuel num den : Nat) (s t : CoinFlipper), obsEq s t →
      optObsEq (gen_ratio fuel num den s) (gen_ratio fuel num den t)) ∧
    (∀ (fuel d : Nat) (s t : CoinFlipper), obsEq s t →
      optObsEq (gen_ratio_one_over fuel s d) (gen_ratio_one_over fuel t d)) :=
  ⟨next_congr, allNext_congr, gen_ratio_congr, gen_ratio_one_over_congr⟩

/-- Witness for C8: two states whose chunks differ only in stale bits. -/
theorem C8_stale_bits_never_read_witness :
    (next ⟨fun _ => 0, 0, 1, 1⟩).1 = (next ⟨fun _ => 0, 0, 3, 1⟩).1 ∧
    obsEq (next ⟨fun _ => 0, 0, 1, 1⟩).2 (next ⟨fun _ => 0, 0, 3, 1⟩).2 :=
  C8_stale_bits_never_read.1 ⟨fun _ => 0, 0, 1, 1⟩ ⟨fun _ => 0, 0, 3, 1⟩
    ⟨rfl, rfl, rfl, by decide⟩
